import Mathlib

/-!
Shallow embedding of `docarray/array/array/pushpull/s3.py` (class `PushPullS3`)
and proofs of the specified properties of its push/pull/list/delete operations.

Bytes are modelled as `Nat`, byte strings as `List Nat`, Python strings as
`List Char`.  Documents are opaque, modelled by an arbitrary type (or `Nat`
where a concrete one is needed).
-/

namespace DocArrayS3

/-- `s.split('/', 1)` followed by unpacking into exactly two variables:
returns the part before the first occurrence of `sep` and the part after it,
or `none` (Python: a `ValueError` from unpacking) when `sep` does not occur.
Mirrors `bucket, name = name.split('/', 1)` in `list`, `delete`,
`push_stream` and `pull_stream`. -/
def split1 (sep : Char) : List Char → Option (List Char × List Char)
  | [] => none
  | c :: rest =>
      if c = sep then some ([], rest)
      else (split1 sep rest).map (fun p => (c :: p.1, p.2))

/-- The buffer capacity constant of `push_stream`:
`_buffer_cap = 4 * 1024 * 1024 - 1024`. -/
def bufferCap : Nat := 4 * 1024 * 1024 - 1024

/-- The upload loop of `push_stream`, as a function from the remaining
encoded chunks and the current buffer contents to the list of blocks written
to the S3 sink, in emission order.  Mirrors:

  while True:
      try:
          buffer_size += buffer.write(next(binary_stream))
          if buffer_size >= buffer_cap: flush buffer as one block; reset
      except StopIteration:
          flush remaining buffer (written unconditionally, even if empty); break
-/
def pushBlocks (cap : Nat) : List (List Nat) → List Nat → List (List Nat)
  | [], buf => [buf]
  | c :: cs, buf =>
      let buf' := buf ++ c
      if cap ≤ buf'.length then buf' :: pushBlocks cap cs []
      else pushBlocks cap cs buf'

/-- Modelled from the spec: the Chunk Buffer write-side contract of §4.1 with
the conditional finalize write of §4.2 step 5 ("call `finalize`; if it yields
a non-empty Block, write it"): identical to `pushBlocks` except that an empty
final block is skipped rather than written. -/
def pushBlocksSpec (cap : Nat) : List (List Nat) → List Nat → List (List Nat)
  | [], buf => if buf = [] then [] else [buf]
  | c :: cs, buf =>
      let buf' := buf ++ c
      if cap ≤ buf'.length then buf' :: pushBlocksSpec cap cs []
      else pushBlocksSpec cap cs buf'

theorem pushBlocks_flatten (cap : Nat) :
    ∀ (cs : List (List Nat)) (buf : List Nat),
      (pushBlocks cap cs buf).flatten = buf ++ cs.flatten
  | [], buf => by simp [pushBlocks]
  | c :: cs, buf => by
      simp only [pushBlocks, List.flatten]
      split
      · simp [pushBlocks_flatten cap cs, List.append_assoc]
      · simp [pushBlocks_flatten cap cs, List.append_assoc]

theorem pushBlocks_ne_nil (cap : Nat) :
    ∀ (cs : List (List Nat)) (buf : List Nat), pushBlocks cap cs buf ≠ []
  | [], _ => by simp [pushBlocks]
  | c :: cs, buf => by
      simp only [pushBlocks]
      split
      · simp
      · exact pushBlocks_ne_nil cap cs _

theorem pushBlocks_mid_bounds (cap : Nat) :
    ∀ (cs : List (List Nat)) (buf : List Nat), buf.length < cap →
      ∀ b ∈ (pushBlocks cap cs buf).dropLast,
        cap ≤ b.length ∧ ∃ c ∈ cs, (∃ t, b = t ++ c) ∧ b.length ≤ cap + c.length
  | [], buf => by
      intro _ b hb
      simp [pushBlocks] at hb
  | c :: cs, buf => by
      intro hbuf b hb
      by_cases hge : cap ≤ (buf ++ c).length
      · simp only [pushBlocks, if_pos hge] at hb
        have hne := pushBlocks_ne_nil cap cs ([] : List Nat)
        rw [show ((buf ++ c) :: pushBlocks cap cs []).dropLast
              = (buf ++ c) :: (pushBlocks cap cs []).dropLast from by
            cases hpb : pushBlocks cap cs [] with
            | nil => exact absurd hpb hne
            | cons x xs => exact List.dropLast_cons₂ ..] at hb
        rcases List.mem_cons.mp hb with hb | hb
        · subst hb
          refine ⟨hge, c, by simp, ⟨buf, rfl⟩, ?_⟩
          have : buf.length + c.length < cap + c.length :=
            Nat.add_lt_add_right hbuf c.length
          simpa [List.length_append] using Nat.le_of_lt this
        · have hzero : (0 : Nat) < cap := Nat.lt_of_le_of_lt (Nat.zero_le _) hbuf
          obtain ⟨h1, c', hc', h2⟩ :=
            pushBlocks_mid_bounds cap cs [] (by simpa using hzero) b hb
          exact ⟨h1, c', List.mem_cons_of_mem _ hc', h2⟩
      · simp only [pushBlocks, if_neg hge] at hb
        have hlt' : (buf ++ c).length < cap := Nat.lt_of_not_le hge
        obtain ⟨h1, c', hc', h2⟩ := pushBlocks_mid_bounds cap cs (buf ++ c) hlt' b hb
        exact ⟨h1, c', List.mem_cons_of_mem _ hc', h2⟩

theorem pushBlocks_last_lt (cap : Nat) :
    ∀ (cs : List (List Nat)) (buf : List Nat), buf.length < cap →
      ((pushBlocks cap cs buf).getLastD []).length < cap
  | [], buf => by
      intro hbuf
      simpa [pushBlocks] using hbuf
  | c :: cs, buf => by
      intro hbuf
      simp only [pushBlocks]
      split
      · next hge =>
        have hzero : (0 : Nat) < cap := Nat.lt_of_le_of_lt (Nat.zero_le _) hbuf
        have hne := pushBlocks_ne_nil cap cs ([] : List Nat)
        have := pushBlocks_last_lt cap cs [] (by simpa using hzero)
        cases hpb : pushBlocks cap cs [] with
        | nil => exact absurd hpb hne
        | cons x xs =>
            rw [hpb] at this
            simpa [List.getLastD_cons] using this
      · next hlt =>
        exact pushBlocks_last_lt cap cs (buf ++ c) (Nat.lt_of_not_le hlt)

theorem pushBlocks_eq_spec_or (cap : Nat) :
    ∀ (cs : List (List Nat)) (buf : List Nat),
      pushBlocks cap cs buf = pushBlocksSpec cap cs buf ∨
        pushBlocks cap cs buf = pushBlocksSpec cap cs buf ++ [[]]
  | [], buf => by
      by_cases hbuf : buf = []
      · subst hbuf; right; simp [pushBlocks, pushBlocksSpec]
      · left; simp [pushBlocks, pushBlocksSpec, hbuf]
  | c :: cs, buf => by
      simp only [pushBlocks, pushBlocksSpec]
      split
      · rcases pushBlocks_eq_spec_or cap cs ([] : List Nat) with h | h
        · left; rw [h]
        · right; rw [h]; simp
      · exact pushBlocks_eq_spec_or cap cs (buf ++ c)

/-- C2: for every sequence of input byte chunks fed to the push-side chunk
buffer of `push_stream`, the concatenation of all blocks written to the
remote sink, in emission order, equals the concatenation of all input chunks
in input order: no byte duplicated or dropped, including across block
boundaries. -/
theorem claim2_chunk_buffer_completeness (cs : List (List Nat)) :
    (pushBlocks bufferCap cs []).flatten = cs.flatten := by
  simpa using pushBlocks_flatten bufferCap cs []

/-- C3: with a positive capacity threshold (the code's `_buffer_cap` is
`4*1024*1024 - 1024 > 0`), every block emitted before the end of the chunk
sequence has size at least the capacity, is never empty, and exceeds the
capacity by at most the size of its last (trailing) chunk; the final
finalize-emitted block is the only one that may be smaller (or empty). -/
theorem claim3_block_bounds (cap : Nat) (hcap : 0 < cap) (cs : List (List Nat)) :
    (∀ b ∈ (pushBlocks cap cs []).dropLast,
        cap ≤ b.length ∧ b ≠ [] ∧
          ∃ c ∈ cs, (∃ t, b = t ++ c) ∧ b.length ≤ cap + c.length) ∧
    ((pushBlocks cap cs []).getLastD []).length < cap := by
  constructor
  · intro b hb
    obtain ⟨h1, hrest⟩ := pushBlocks_mid_bounds cap cs [] (by simpa using hcap) b hb
    refine ⟨h1, ?_, hrest⟩
    intro hb0
    rw [hb0] at h1
    simp at h1
    omega
  · exact pushBlocks_last_lt cap cs [] (by simpa using hcap)

theorem claim3_block_bounds_witness :
    0 < 2 ∧
      (2 ≤ ([1, 2, 3] : List Nat).length ∧ ([1, 2, 3] : List Nat) ≠ [] ∧
        ∃ c ∈ [[1, 2, 3], [4]], (∃ t, ([1, 2, 3] : List Nat) = t ++ c) ∧
          ([1, 2, 3] : List Nat).length ≤ 2 + c.length) ∧
      ((pushBlocks 2 [[1, 2, 3], [4]] []).getLastD []).length < 2 :=
  ⟨by decide,
   (claim3_block_bounds 2 (by decide) [[1, 2, 3], [4]]).1 [1, 2, 3] (by decide),
   (claim3_block_bounds 2 (by decide) [[1, 2, 3], [4]]).2⟩

/-- C4 counterexample: on the empty chunk sequence the buffer is empty at
finalize time, yet `push_stream` still performs the final write: the loop's
`StopIteration` branch writes `_buffer.read(_buffer_size)` unconditionally,
so the emitted-block sequence is `[[]]` (one empty write), not `[]`. -/
theorem claim4_counterexample :
    pushBlocks bufferCap ([] : List (List Nat)) [] = [[]] ∧
      pushBlocks bufferCap ([] : List (List Nat)) [] ≠ [] :=
  ⟨rfl, by simp [pushBlocks]⟩

/-- C4 (amended): after the chunk sequence is exhausted, the remaining
buffer contents are always written as a final block, even when the buffer
is empty; the emitted blocks agree with the spec's conditional-write
behaviour up to at most one trailing empty block, and the bytes written are
identical, so the unconditional empty write is a byte-level no-op, not an
error. -/
theorem claim4_finalize_always_writes (cs : List (List Nat)) :
    pushBlocks bufferCap cs [] ≠ [] ∧
      (pushBlocks bufferCap cs [] = pushBlocksSpec bufferCap cs [] ∨
        pushBlocks bufferCap cs [] = pushBlocksSpec bufferCap cs [] ++ [[]]) ∧
      (pushBlocks bufferCap cs []).flatten = (pushBlocksSpec bufferCap cs []).flatten := by
  refine ⟨pushBlocks_ne_nil _ _ _, pushBlocks_eq_spec_or _ _ _, ?_⟩
  rcases pushBlocks_eq_spec_or bufferCap cs [] with h | h
  · rw [h]
  · rw [h]; simp

theorem split1_eq_none_iff (sep : Char) :
    ∀ s : List Char, split1 sep s = none ↔ sep ∉ s
  | [] => by simp [split1]
  | c :: rest => by
      by_cases hc : c = sep
      · subst hc
        simp [split1]
      · simp [split1, hc, Option.map_eq_none, split1_eq_none_iff sep rest,
          Ne.symm hc]

theorem split1_eq_some (sep : Char) :
    ∀ s : List Char, sep ∈ s →
      split1 sep s =
        some (s.takeWhile (fun c => c ≠ sep), (s.dropWhile (fun c => c ≠ sep)).tail)
  | [], h => by simp at h
  | c :: rest, h => by
      by_cases hc : c = sep
      · subst hc
        simp [split1, List.takeWhile, List.dropWhile]
      · have hmem : sep ∈ rest := by
          rcases List.mem_cons.mp h with h' | h'
          · exact absurd h'.symm hc
          · exact h'
        simp [split1, hc, split1_eq_some sep rest hmem, List.takeWhile,
          List.dropWhile, Ne.symm hc]

theorem takeWhile_ne_not_mem (sep : Char) :
    ∀ s : List Char, sep ∉ s.takeWhile (fun c => c ≠ sep)
  | [] => by simp [List.takeWhile]
  | c :: rest => by
      by_cases hc : c = sep
      · subst hc; simp [List.takeWhile]
      · rw [List.takeWhile_cons, if_pos (show decide (c ≠ sep) = true from by simp [hc])]
        intro h
        rcases List.mem_cons.mp h with h' | h'
        · exact hc h'.symm
        · exact takeWhile_ne_not_mem sep rest h'

theorem takeWhile_append_sep_dropWhile (sep : Char) :
    ∀ s : List Char, sep ∈ s →
      s = s.takeWhile (fun c => c ≠ sep) ++ sep :: (s.dropWhile (fun c => c ≠ sep)).tail
  | [], h => by simp at h
  | c :: rest, h => by
      by_cases hc : c = sep
      · subst hc
        simp [List.takeWhile_cons, List.dropWhile_cons]
      · have hmem : sep ∈ rest := by
          rcases List.mem_cons.mp h with h' | h'
          · exact absurd h'.symm hc
          · exact h'
        simp only [List.takeWhile_cons, List.dropWhile_cons,
          show (decide (c ≠ sep)) = true from by simp [hc], if_pos,
          List.cons_append, List.cons.injEq, true_and]
        exact takeWhile_append_sep_dropWhile sep rest hmem

/-- C5: the namespace-path split `name.split('/', 1)` used by all four
operations: for every string containing a `'/'`, it splits on the first
`'/'` into bucket (the part before, containing no `'/'`) and key remainder
(everything after); for every string lacking a `'/'`, the two-variable
unpacking fails (modelled as `none`; in Python a `ValueError`, the spec's
InvalidName condition). -/
theorem claim5_name_parsing (s : List Char) :
    (('/' : Char) ∈ s →
        split1 '/' s =
          some (s.takeWhile (fun c => c ≠ '/'), (s.dropWhile (fun c => c ≠ '/')).tail) ∧
        s = s.takeWhile (fun c => c ≠ '/') ++ '/' :: (s.dropWhile (fun c => c ≠ '/')).tail ∧
        ('/' : Char) ∉ s.takeWhile (fun c => c ≠ '/')) ∧
    (('/' : Char) ∉ s → split1 '/' s = none) := by
  constructor
  · intro h
    exact ⟨split1_eq_some '/' s h, takeWhile_append_sep_dropWhile '/' s h,
      takeWhile_ne_not_mem '/' s⟩
  · intro h
    exact (split1_eq_none_iff '/' s).mpr h

theorem claim5_name_parsing_witness :
    ('/' : Char) ∈ "mybucket/foo/bar".data ∧
      split1 '/' "mybucket/foo/bar".data =
        some (("mybucket/foo/bar".data).takeWhile (fun c => c ≠ '/'),
          (("mybucket/foo/bar".data).dropWhile (fun c => c ≠ '/')).tail) ∧
      ("mybucket/foo/bar".data).takeWhile (fun c => c ≠ '/') = "mybucket".data ∧
      (("mybucket/foo/bar".data).dropWhile (fun c => c ≠ '/')).tail = "foo/bar".data ∧
      split1 '/' "nobucket".data = none :=
  ⟨by decide, ((claim5_name_parsing "mybucket/foo/bar".data).1 (by decide)).1,
    by decide, by decide,
    (claim5_name_parsing "nobucket".data).2 (by decide)⟩

/-- The split on line 20 of s3.py (`list`):
`bucket, namespace = namespace.split('/', 1)`. -/
def listSplitName (s : List Char) : Option (List Char × List Char) :=
  split1 '/' s

/-- The split on line 56 of s3.py (`delete`):
`bucket, name = name.split('/', 1)`. -/
def deleteSplitName (s : List Char) : Option (List Char × List Char) :=
  split1 '/' s

/-- The split on line 90 of s3.py (`push_stream`):
`bucket, name = name.split('/', 1)`. -/
def pushSplitName (s : List Char) : Option (List Char × List Char) :=
  split1 '/' s

/-- The split on line 139 of s3.py (`pull_stream`):
`bucket, name = name.split('/', 1)`. -/
def pullSplitName (s : List Char) : Option (List Char × List Char) :=
  split1 '/' s

/-- C6: list, delete, push and pull all compute the bucket/key split of a
namespace path with the same function: on every input path the four
operations agree on which bucket and which object key it addresses. -/
theorem claim6_split_agreement (s : List Char) :
    listSplitName s = deleteSplitName s ∧
      deleteSplitName s = pushSplitName s ∧
      pushSplitName s = pullSplitName s :=
  ⟨rfl, rfl, rfl⟩

/-- A boto3 `ClientError`, of which `delete` inspects
`e.response['Error']['Code']`. -/
structure ClientError where
  code : String
deriving DecidableEq, Repr

/-- A Python exception surfaced by `delete`: either the `ValueError` it
raises itself, or a re-raised `ClientError` (the bare `raise` re-raises the
caught error object unchanged; the constructor is only the typing of the
two exception kinds). -/
inductive PyError where
  | valueError (msg : List Char)
  | clientError (e : ClientError)
deriving DecidableEq, Repr

/-- The contents of the S3 store, as a predicate: `store bucket key` tells
whether object `key` exists in `bucket`. -/
def S3Store : Type := List Char → List Char → Bool

/-- `s3.Object(bucket, key).load()`: succeeds when the object exists,
otherwise raises a `ClientError` with code 404. -/
def s3Load (store : S3Store) (bucket key : List Char) : Except ClientError Unit :=
  if store bucket key then Except.ok () else Except.error ⟨"404"⟩

/-- The `try/except` body of `delete` (s3.py lines 58–70): `object.load()`
then `object.delete(); return True`, where a `ClientError` with code 404
yields `False` when `missing_ok` else a `ValueError`, and any other
`ClientError` is re-raised unchanged. -/
def deleteCore (load : Except ClientError Unit) (nm : List Char) (missing_ok : Bool) :
    Except PyError Bool :=
  match load with
  | Except.ok _ => Except.ok true
  | Except.error e =>
      if e.code = "404" then
        if missing_ok then Except.ok false
        else Except.error (PyError.valueError
          ("Object ".data ++ nm ++ " does not exist".data))
      else Except.error (PyError.clientError e)

/-- The effect of `object.delete()` on the store: the object at
`(bucket, key)` no longer exists. -/
def eraseKey (store : S3Store) (bucket key : List Char) : S3Store :=
  fun b k => if b = bucket ∧ k = key then false else store b k

/-- `PushPullS3.delete(name, missing_ok)`: split the name into bucket and
object name, address `name + '.da'`, check existence, then delete.  Returns
the boolean result together with the store after the call. -/
def s3DeleteOp (store : S3Store) (nameStr : List Char) (missing_ok : Bool) :
    Except PyError (Bool × S3Store) :=
  match deleteSplitName nameStr with
  | none => Except.error (PyError.valueError
      "not enough values to unpack (expected 2, got 1)".data)
  | some (bucket, nm) =>
      let key := nm ++ ".da".data
      match deleteCore (s3Load store bucket key) nm missing_ok with
      | Except.error e => Except.error e
      | Except.ok true => Except.ok (true, eraseKey store bucket key)
      | Except.ok false => Except.ok (false, store)

/-- C7: `delete` checks existence first; on an absent object it returns
`false` without error when `missing_ok` is true and fails with the
"does not exist" `ValueError` when `missing_ok` is false; on a present
object it deletes it and returns `true`, and repeating the delete on the
resulting store behaves exactly like deleting an absent name. -/
theorem claim7_delete_behaviour (store : S3Store) (nameStr bucket nm : List Char)
    (mok : Bool) (hsplit : deleteSplitName nameStr = some (bucket, nm)) :
    (store bucket (nm ++ ".da".data) = false →
        s3DeleteOp store nameStr mok =
          if mok then Except.ok (false, store)
          else Except.error (PyError.valueError
            ("Object ".data ++ nm ++ " does not exist".data))) ∧
    (store bucket (nm ++ ".da".data) = true →
        s3DeleteOp store nameStr mok =
          Except.ok (true, eraseKey store bucket (nm ++ ".da".data))) ∧
    (store bucket (nm ++ ".da".data) = true →
        eraseKey store bucket (nm ++ ".da".data) bucket (nm ++ ".da".data) = false) ∧
    (store bucket (nm ++ ".da".data) = true →
        s3DeleteOp (eraseKey store bucket (nm ++ ".da".data)) nameStr mok =
          if mok then Except.ok (false, eraseKey store bucket (nm ++ ".da".data))
          else Except.error (PyError.valueError
            ("Object ".data ++ nm ++ " does not exist".data))) := by
  have herase : eraseKey store bucket (nm ++ ".da".data) bucket (nm ++ ".da".data) = false := by
    simp [eraseKey]
  refine ⟨?_, ?_, fun _ => herase, ?_⟩
  · intro habs
    cases mok <;> simp [s3DeleteOp, hsplit, deleteCore, s3Load, habs]
  · intro hpres
    simp [s3DeleteOp, hsplit, deleteCore, s3Load, hpres]
  · intro _
    cases mok <;> simp [s3DeleteOp, hsplit, deleteCore, s3Load, herase]

/-- A concrete store holding exactly the object `x.da` in bucket `buck`. -/
def cStore : S3Store :=
  fun b k => if b = "buck".data ∧ k = "x.da".data then true else false

theorem claim7_delete_behaviour_witness :
    s3DeleteOp cStore "buck/x".data true =
        Except.ok (true, eraseKey cStore "buck".data ("x".data ++ ".da".data)) ∧
      s3DeleteOp (eraseKey cStore "buck".data ("x".data ++ ".da".data)) "buck/x".data true =
        Except.ok (false, eraseKey cStore "buck".data ("x".data ++ ".da".data)) :=
  ⟨(claim7_delete_behaviour cStore "buck/x".data "buck".data "x".data true
      (by decide)).2.1 (by decide),
    (claim7_delete_behaviour cStore "buck/x".data "buck".data "x".data true
      (by decide)).2.2.2 (by decide)⟩

/-- C8: in the existence-check `try/except` of `delete`, only the 404 error
code is interpreted locally; every `ClientError` with any other code is
re-raised unchanged (the same error value `e`, not wrapped or swallowed),
regardless of `missing_ok`. -/
theorem claim8_error_propagation (e : ClientError) (nm : List Char) (mok : Bool)
    (h : e.code ≠ "404") :
    deleteCore (Except.error e) nm mok = Except.error (PyError.clientError e) := by
  simp [deleteCore, h]

theorem claim8_error_propagation_witness :
    (ClientError.mk "403").code ≠ "404" ∧
      deleteCore (Except.error ⟨"403"⟩) "x".data true =
        Except.error (PyError.clientError ⟨"403"⟩) :=
  ⟨by decide, claim8_error_propagation ⟨"403"⟩ "x".data true (by decide)⟩

/-- Python `str.startswith`: is the first argument a leading part of the
second? -/
def startsWith : List Char → List Char → Bool
  | [], _ => true
  | _ :: _, [] => false
  | p :: ps, c :: cs => decide (p = c) && startsWith ps cs

/-- Python `str.endswith`: is the first argument a trailing part of the
second? -/
def endsWith (sfx s : List Char) : Bool :=
  startsWith sfx.reverse s.reverse

/-- Python `str.split(sep)` (no limit): the list of runs between
occurrences of `sep`; always non-empty. -/
def splitAll (sep : Char) : List Char → List (List Char)
  | [] => [[]]
  | c :: rest =>
      match splitAll sep rest with
      | [] => [[]]
      | h :: t => if c = sep then [] :: h :: t else (c :: h) :: t

theorem startsWith_iff : ∀ p s : List Char, startsWith p s = true ↔ ∃ t, s = p ++ t
  | [], s => by simp [startsWith]
  | p :: ps, [] => by simp [startsWith]
  | p :: ps, c :: cs => by
      simp only [startsWith, Bool.and_eq_true, decide_eq_true_eq, startsWith_iff ps cs]
      constructor
      · rintro ⟨rfl, t, rfl⟩
        exact ⟨t, rfl⟩
      · rintro ⟨t, ht⟩
        rw [List.cons_append] at ht
        injection ht with h1 h2
        exact ⟨h1.symm, t, h2⟩

theorem endsWith_iff (sfx s : List Char) : endsWith sfx s = true ↔ ∃ t, s = t ++ sfx := by
  unfold endsWith
  rw [startsWith_iff]
  constructor
  · rintro ⟨t, ht⟩
    refine ⟨t.reverse, ?_⟩
    have h := congrArg List.reverse ht
    simpa using h
  · rintro ⟨t, rfl⟩
    exact ⟨t.reverse, by simp⟩

theorem splitAll_ne_nil (sep : Char) : ∀ s : List Char, splitAll sep s ≠ []
  | [] => by simp [splitAll]
  | c :: rest => by
      cases hpb : splitAll sep rest with
      | nil => exact absurd hpb (splitAll_ne_nil sep rest)
      | cons h t =>
          simp only [splitAll, hpb]
          split <;> simp

theorem splitAll_no_sep (sep : Char) : ∀ s : List Char, sep ∉ s → splitAll sep s = [s]
  | [], _ => rfl
  | c :: rest, h => by
      have hc : ¬c = sep := fun hcc => h (by rw [hcc]; exact List.mem_cons_self sep rest)
      have hrest : sep ∉ rest := fun hm => h (List.mem_cons_of_mem _ hm)
      simp only [splitAll, splitAll_no_sep sep rest hrest]
      rw [if_neg hc]

theorem splitAll_two_le (sep : Char) : ∀ s : List Char, sep ∈ s → 2 ≤ (splitAll sep s).length
  | [], h => by simp at h
  | c :: rest, h => by
      cases hpb : splitAll sep rest with
      | nil => exact absurd hpb (splitAll_ne_nil sep rest)
      | cons x xs =>
          by_cases hc : c = sep
          · simp only [splitAll, hpb, if_pos hc]
            simp
          · have hmem : sep ∈ rest := by
              rcases List.mem_cons.mp h with h' | h'
              · exact absurd h'.symm hc
              · exact h'
            have h2 := splitAll_two_le sep rest hmem
            rw [hpb] at h2
            simp only [splitAll, hpb, if_neg hc]
            simpa using h2

theorem takeWhile_append_all (p : Char → Bool) :
    ∀ xs ys : List Char, (∀ x ∈ xs, p x = true) →
      (xs ++ ys).takeWhile p = xs ++ ys.takeWhile p
  | [], ys, _ => rfl
  | x :: xs, ys, h => by
      have hx : p x = true := h x (by simp)
      simp [List.takeWhile_cons, hx,
        takeWhile_append_all p xs ys (fun a ha => h a (by simp [ha]))]

theorem takeWhile_append_stop (p : Char → Bool) :
    ∀ xs ys : List Char, (∃ x ∈ xs, p x = false) →
      (xs ++ ys).takeWhile p = xs.takeWhile p
  | [], ys, h => by simp at h
  | x :: xs, ys, h => by
      by_cases hx : p x = true
      · have hxs : ∃ a ∈ xs, p a = false := by
          rcases h with ⟨a, ha, hpa⟩
          rcases List.mem_cons.mp ha with rfl | ha'
          · rw [hx] at hpa; cases hpa
          · exact ⟨a, ha', hpa⟩
        simp [List.takeWhile_cons, hx, takeWhile_append_stop p xs ys hxs]
      · have hx' : p x = false := by simpa using hx
        simp [List.takeWhile_cons, hx']

/-- The last `sep`-separated segment of a string: everything after the last
occurrence of `sep` (the whole string when `sep` is absent). -/
def lastSeg (sep : Char) (s : List Char) : List Char :=
  (s.reverse.takeWhile (fun c => c ≠ sep)).reverse

theorem splitAll_getLastD (sep : Char) :
    ∀ s : List Char, (splitAll sep s).getLastD [] = lastSeg sep s
  | [] => by simp [splitAll, lastSeg]
  | c :: rest => by
      cases hpb : splitAll sep rest with
      | nil => exact absurd hpb (splitAll_ne_nil sep rest)
      | cons x xs =>
          have ih := splitAll_getLastD sep rest
          rw [hpb] at ih
          by_cases hc : c = sep
          · have hR : lastSeg sep (c :: rest) = lastSeg sep rest := by
              unfold lastSeg
              rw [List.reverse_cons]
              by_cases hm : sep ∈ rest
              · rw [takeWhile_append_stop _ _ _
                  ⟨sep, List.mem_reverse.mpr hm, by simp⟩]
              · have hall : ∀ a ∈ rest.reverse, (fun b => decide (b ≠ sep)) a = true := by
                  intro a ha
                  have haa : a ≠ sep := fun he => hm (he ▸ List.mem_reverse.mp ha)
                  simp [haa]
                rw [takeWhile_append_all _ _ _ hall]
                have hone : List.takeWhile (fun b => decide (b ≠ sep)) [c] = [] := by
                  simp [hc]
                rw [hone, List.takeWhile_eq_self_iff.mpr hall]
                simp
            simp only [splitAll, hpb, if_pos hc]
            rw [hR, ← ih]
            simp [List.getLastD_cons]
          · cases xs with
            | nil =>
                have hnom : sep ∉ rest := by
                  intro hm
                  have h2 := splitAll_two_le sep rest hm
                  rw [hpb] at h2
                  simp at h2
                have hx : x = rest := by
                  have h3 := splitAll_no_sep sep rest hnom
                  rw [hpb] at h3
                  injection h3 with h1 _
                simp only [splitAll, hpb, if_neg hc]
                rw [hx]
                unfold lastSeg
                rw [List.reverse_cons]
                have hall : ∀ a ∈ rest.reverse, (fun b => decide (b ≠ sep)) a = true := by
                  intro a ha
                  have haa : a ≠ sep := fun he => hnom (he ▸ List.mem_reverse.mp ha)
                  simp [haa]
                rw [takeWhile_append_all _ _ _ hall]
                have hone : List.takeWhile (fun b => decide (b ≠ sep)) [c] = [c] := by
                  simp [hc]
                rw [hone]
                simp
            | cons y ys =>
                have hmem : sep ∈ rest := by
                  by_contra hm
                  have h3 := splitAll_no_sep sep rest hm
                  rw [hpb] at h3
                  injection h3 with _ h2
                  cases h2
                have hR : lastSeg sep (c :: rest) = lastSeg sep rest := by
                  unfold lastSeg
                  rw [List.reverse_cons, takeWhile_append_stop _ _ _
                    ⟨sep, List.mem_reverse.mpr hmem, by simp⟩]
                simp only [splitAll, hpb, if_neg hc]
                rw [hR, ← ih]
                simp [List.getLastD_cons]

theorem splitAll_headD (sep : Char) :
    ∀ s : List Char, (splitAll sep s).headD [] = s.takeWhile (fun c => c ≠ sep)
  | [] => by simp [splitAll]
  | c :: rest => by
      cases hpb : splitAll sep rest with
      | nil => exact absurd hpb (splitAll_ne_nil sep rest)
      | cons x xs =>
          have ih := splitAll_headD sep rest
          rw [hpb] at ih
          by_cases hc : c = sep
          · simp only [splitAll, hpb, if_pos hc]
            simp [List.takeWhile_cons, hc]
          · simp only [splitAll, hpb, if_neg hc]
            simp only [List.headD_cons] at ih ⊢
            rw [List.takeWhile_cons,
              if_pos (show decide (c ≠ sep) = true from by simp [hc]), ih]

/-- The fixed file extension `'.da'` appended to every stored object key. -/
def daExt : List Char := ".da".data

/-- The name derivation of `list` (s3.py line 28):
`f.key.split('/')[-1].split('.')[0]` — the part of the last path segment
before its first dot. -/
def daName (k : List Char) : List Char :=
  (splitAll '.' ((splitAll '/' k).getLastD [])).headD []

/-- The filter-and-derive core of `list` (s3.py lines 23–28) applied to the
bucket's object keys in store-listing order:
keep keys with the namespace as leading part and `'.da'` as trailing part,
and map each to its derived name. -/
def listNames (keys : List (List Char)) (ns : List Char) : List (List Char) :=
  (keys.filter (fun k => startsWith ns k && endsWith daExt k)).map daName

/-- Remove a trailing part from a string when present. -/
def stripSuffix (sfx s : List Char) : List Char :=
  if endsWith sfx s then s.take (s.length - sfx.length) else s

/-- The name derivation in the words of the spec: the key with the
extension and any path prefix stripped (take the last path segment, then
remove the trailing `'.da'`). -/
def specDerivedName (k : List Char) : List Char :=
  stripSuffix daExt (lastSeg '/' k)

theorem stripSuffix_append (sfx t : List Char) : stripSuffix sfx (t ++ sfx) = t := by
  unfold stripSuffix
  rw [if_pos ((endsWith_iff sfx (t ++ sfx)).mpr ⟨t, rfl⟩)]
  have hlen : (t ++ sfx).length - sfx.length = t.length := by simp
  rw [hlen, List.take_left]

theorem lastSeg_append_no_sep (sep : Char) (t sfx : List Char) (h : sep ∉ sfx) :
    lastSeg sep (t ++ sfx) = lastSeg sep t ++ sfx := by
  unfold lastSeg
  rw [List.reverse_append]
  have hall : ∀ a ∈ sfx.reverse, (fun b => decide (b ≠ sep)) a = true := by
    intro a ha
    have haa : a ≠ sep := fun he => h (he ▸ List.mem_reverse.mp ha)
    simp [haa]
  rw [takeWhile_append_all _ _ _ hall, List.reverse_append]
  simp

theorem daName_eq_takeWhile (k : List Char) :
    daName k = (lastSeg '/' k).takeWhile (fun c => c ≠ '.') := by
  unfold daName
  rw [splitAll_getLastD, splitAll_headD]

theorem daName_eq_specDerivedName (k : List Char) (hda : endsWith daExt k = true)
    (hdot : ('.' : Char) ∉ specDerivedName k) : daName k = specDerivedName k := by
  obtain ⟨t, rfl⟩ := (endsWith_iff daExt k).mp hda
  have hsl : lastSeg '/' (t ++ daExt) = lastSeg '/' t ++ daExt :=
    lastSeg_append_no_sep '/' t daExt (by decide)
  have hspec : specDerivedName (t ++ daExt) = lastSeg '/' t := by
    unfold specDerivedName
    rw [hsl, stripSuffix_append]
  rw [hspec] at hdot
  rw [hspec, daName_eq_takeWhile, hsl]
  have hall : ∀ a ∈ lastSeg '/' t, (fun b => decide (b ≠ '.')) a = true := by
    intro a ha
    have haa : a ≠ '.' := fun he => hdot (he ▸ ha)
    simp [haa]
  rw [takeWhile_append_all _ _ _ hall]
  have hext : daExt.takeWhile (fun b => decide (b ≠ '.')) = [] := by decide
  rw [hext, List.append_nil]

/-- C9 counterexample: the claimed name derivation ("strip the extension
and any path prefix") disagrees with the code on a key whose base name
contains a dot: for the stored object `ns/a.b.da`, `list` returns `a`
(the code truncates at the first dot of the last segment), while stripping
the `.da` extension from the last segment yields `a.b`. -/
theorem claim9_counterexample :
    listNames ["ns/a.b.da".data] "ns".data = ["a".data] ∧
      specDerivedName "ns/a.b.da".data = "a.b".data ∧
      listNames ["ns/a.b.da".data] "ns".data ≠ [specDerivedName "ns/a.b.da".data] := by
  refine ⟨by decide, by decide, by decide⟩

/-- C9 (amended): `list` returns, in store-listing order, exactly the names
of objects whose key starts with the namespace and ends with `'.da'`, each
name being the last path segment truncated at its first dot — which equals
stripping the extension and the path prefix whenever the remaining base
name contains no further dot; in particular, for stored objects `ns/a.da`,
`ns/b.da`, `other/c.da`, listing namespace `ns` returns exactly
`["a", "b"]`. -/
theorem claim9_list_filtering (keys : List (List Char)) (ns : List Char)
    (hdots : ∀ k ∈ keys, endsWith daExt k = true → ('.' : Char) ∉ specDerivedName k) :
    listNames keys ns =
      ((keys.filter (fun k => startsWith ns k && endsWith daExt k)).map specDerivedName) ∧
    listNames ["ns/a.da".data, "ns/b.da".data, "other/c.da".data] "ns".data
      = ["a".data, "b".data] := by
  constructor
  · unfold listNames
    refine List.map_congr_left ?_
    intro k hk
    have hk' := List.mem_filter.mp hk
    have hda : endsWith daExt k = true := by
      have hboth := hk'.2
      simp only [Bool.and_eq_true] at hboth
      exact hboth.2
    exact daName_eq_specDerivedName k hda (hdots k hk'.1 hda)
  · decide

theorem claim9_list_filtering_witness :
    (listNames ["ns/a.da".data, "ns/b.da".data, "other/c.da".data] "ns".data =
        ((["ns/a.da".data, "ns/b.da".data, "other/c.da".data].filter
            (fun k => startsWith "ns".data k && endsWith daExt k)).map specDerivedName)) ∧
      listNames ["ns/a.da".data, "ns/b.da".data, "other/c.da".data] "ns".data
        = ["a".data, "b".data] :=
  claim9_list_filtering ["ns/a.da".data, "ns/b.da".data, "other/c.da".data]
    "ns".data (by decide)

/-- A bucketed byte store: the byte content of object `key` in `bucket`.
Writes replace the whole object (create-or-overwrite, per S3 semantics). -/
def ByteStore : Type := List Char → List Char → List Nat

/-- Modelled from the spec: the Codec Adapter collaborator of §6
(`_to_binary_stream` in `docarray.array.array.pushpull.helpers`, which is
not part of this repository snapshot's sources): `encode docs protocol
compression` is the lazily produced sequence of encoded byte chunks. -/
def CodecEncode (Doc : Type) : Type :=
  List Doc → String → String → List (List Nat)

/-- Modelled from the spec: the Codec Adapter collaborator of §6
(`_from_binary_stream` in `docarray.array.array.pushpull.helpers`):
`decode protocol compression bytes` is the lazily decoded document
sequence. -/
def CodecDecode (Doc : Type) : Type :=
  String → String → List Nat → List Doc

/-- `PushPullS3.push_stream` (s3.py lines 81–116): split the name, encode
the documents with the fixed tags `protocol='protobuf'`,
`compress='gzip'`, run the buffered upload loop, and store the resulting
bytes at `bucket/name.da`; returns the store after the upload together
with the result summary `{}` (the empty dict).  The `public` and
`branding` arguments are accepted and never read by the body;
`show_progress` only drives a progress bar. -/
def push_stream {Doc : Type} (encode : CodecEncode Doc) (store : ByteStore)
    (docs : List Doc) (name : List Char) ( public : Bool) (show_progress : Bool)
    (branding : Option (List (String × String))) :
    Option (ByteStore × List (String × String)) :=
  match pushSplitName name with
  | none => none
  | some (bucket, nm) =>
      let binary_stream := encode docs "protobuf" "gzip"
      let content := (pushBlocks bufferCap binary_stream []).flatten
      some (fun b k => if b = bucket ∧ k = nm ++ daExt then content else store b k, [])

/-- `PushPullS3.push` (s3.py lines 72–80): delegates to `push_stream` on
the iterated collection. -/
def push {Doc : Type} (encode : CodecEncode Doc) (store : ByteStore)
    (docs : List Doc) (name : List Char) ( public : Bool) (show_progress : Bool)
    (branding : Option (List (String × String))) :
    Option (ByteStore × List (String × String)) :=
  push_stream encode store docs name public show_progress branding

/-- `PushPullS3.pull_stream` (s3.py lines 131–147): split the name, open
the object at `bucket/name.da` and decode it with the same fixed tags
`protocol='protobuf'`, `compress='gzip'`. -/
def pull_stream {Doc : Type} (decode : CodecDecode Doc) (store : ByteStore)
    (name : List Char) (show_progress : Bool) (local_cache : Bool) :
    Option (List Doc) :=
  match pullSplitName name with
  | none => none
  | some (bucket, nm) =>
      some (decode "protobuf" "gzip" (store bucket (nm ++ daExt)))

/-- `PushPullS3.pull` (s3.py lines 118–130): `pull_stream` drained into a
materialized collection, preserving order. -/
def pull {Doc : Type} (decode : CodecDecode Doc) (store : ByteStore)
    (name : List Char) (show_progress : Bool) (local_cache : Bool) :
    Option (List Doc) :=
  pull_stream decode store name show_progress local_cache

/-- C1: for every finite document sequence and every namespace path
containing a `'/'`, pushing under the name and then pulling the same name
returns exactly the original documents in order — for any codec satisfying
the spec's adapter contract at the single fixed (matching) protocol and
compression tags used by both sides, and for any document count including
zero. -/
theorem claim1_roundtrip {Doc : Type} (encode : CodecEncode Doc)
    (decode : CodecDecode Doc) (store : ByteStore) (docs : List Doc)
    (name : List Char) ( pub sp sp' lc : Bool)
    (br : Option (List (String × String)))
    (hname : ('/' : Char) ∈ name)
    (hcodec : ∀ ds : List Doc,
      decode "protobuf" "gzip" (encode ds "protobuf" "gzip").flatten = ds) :
    (push encode store docs name pub sp br).bind
        (fun pr => pull decode pr.1 name sp' lc) = some docs := by
  have hsplit := split1_eq_some '/' name hname
  simp only [push, push_stream, pull, pull_stream, pushSplitName, pullSplitName,
    hsplit, Option.bind_some, Option.some_bind]
  have hcontent := pushBlocks_flatten bufferCap (encode docs "protobuf" "gzip") []
  simp [hcontent, hcodec docs]

theorem claim1_roundtrip_witness :
    ('/' : Char) ∈ "b/k".data ∧
      (push (fun (ds : List Nat) (_ _ : String) => [ds]) (fun _ _ => [])
          [5, 7] "b/k".data false false none).bind
        (fun pr => pull (fun (_ _ : String) (bs : List Nat) => bs) pr.1
          "b/k".data false false) = some [5, 7] :=
  ⟨by decide,
    claim1_roundtrip (fun ds _ _ => [ds]) (fun _ _ bs => bs) (fun _ _ => [])
      [5, 7] "b/k".data false false false false none (by decide)
      (fun ds => by simp)⟩

/-- C10: two runs of `push` (equivalently `push_stream`) that differ only
in the `public` and `branding` arguments produce identical results — the
same store contents (identical bytes at the remote object) — and whenever
the name splits, the returned result summary is the empty dict; the two
arguments have no effect on the core's behaviour. -/
theorem claim10_public_branding_no_effect {Doc : Type} (encode : CodecEncode Doc)
    (store : ByteStore) (docs : List Doc) (name : List Char)
    (p1 p2 sp : Bool) (b1 b2 : Option (List (String × String))) :
    push encode store docs name p1 sp b1 = push encode store docs name p2 sp b2 ∧
      push_stream encode store docs name p1 sp b1 =
        push_stream encode store docs name p2 sp b2 ∧
      Option.map Prod.snd (push encode store docs name p1 sp b1) =
        Option.map (fun _ => ([] : List (String × String))) (pushSplitName name) := by
  refine ⟨rfl, rfl, ?_⟩
  cases hs : pushSplitName name with
  | none => simp [push, push_stream, hs]
  | some pr => cases pr with
    | mk bucket nm => simp [push, push_stream, hs]

end DocArrayS3
